import Mathlib

/-!
Shallow embedding of the hierarchical utterance classifier
(`src/model/hierarchical_model.py`, `main.py`) and proofs about its
loss masking, decoding, reshaping and configuration checks.

Tensors are modelled as nested lists of real numbers; machine floats are
modelled as `ℝ`.  A batch of logits has shape
`[batch_size, max_session_length, num_classes]` and is a
`List (List (List ℝ))`; targets are `List (List ℕ)`; the per-session
valid lengths are a `List ℕ`.
-/

namespace HierarchicalRNN

noncomputable section

/-- Embedding of `tf.sequence_mask` for a single length: a row of
`maxLen` booleans whose `j`-th entry is `j < len`. -/
def sequence_mask_row (len maxLen : ℕ) : List Bool :=
  (List.range maxLen).map (fun j => decide (j < len))

/-- Embedding of `tf.sequence_mask` applied to a vector of session lengths. -/
def sequence_mask (lens : List ℕ) (maxLen : ℕ) : List (List Bool) :=
  lens.map (fun len => sequence_mask_row len maxLen)

/-- Embedding of `tf.boolean_mask` on a rank-2 tensor: keeps the entries whose
mask bit is true, flattened in row-major order. -/
def boolean_mask {α : Type} (xs : List (List α)) (mask : List (List Bool)) : List α :=
  ((xs.zip mask).map
    (fun p => (p.1.zip p.2).filterMap (fun q => if q.2 then some q.1 else none))).flatten

/-- Embedding of `tf.reduce_mean` on a rank-1 tensor. -/
def reduce_mean (xs : List ℝ) : ℝ := xs.sum / xs.length

/-- Embedding of `tf.nn.softmax` on one score vector. -/
def softmax (v : List ℝ) : List ℝ :=
  v.map (fun z => Real.exp z / (v.map Real.exp).sum)

/-- Embedding of `tf.nn.sparse_softmax_cross_entropy_with_logits` at one
position: the negative log of the softmax probability of the target class. -/
def sparse_softmax_cross_entropy (label : ℕ) (v : List ℝ) : ℝ :=
  -Real.log ((softmax v).getD label 0)

/-- Embedding of `tf.argmax` along a vector: index of the first maximal
entry (0 on an empty vector). -/
def argmaxIdx {α : Type} [LinearOrder α] : List α → ℕ
  | [] => 0
  | x :: xs => if x < xs.getD (argmaxIdx xs) x then argmaxIdx xs + 1 else 0

/-- Build/run modes of the orchestrator (`tf.contrib.learn.ModeKeys`). -/
inductive Mode
  | TRAIN
  | EVAL
  | INFER
deriving DecidableEq

namespace HModel

/-- Embedding of `HModel.compute_loss`: per-position sparse softmax
cross-entropy against the target, masked by `tf.sequence_mask` of the
session lengths (mask width is `target.shape[1]`, the padded session
dimension `maxLen`), then `tf.reduce_mean` over the kept entries. -/
def compute_loss (maxLen : ℕ) (logits : List (List (List ℝ)))
    (target : List (List ℕ)) (sess_length : List ℕ) : ℝ :=
  let crossent := (logits.zip target).map
    (fun p => (p.1.zip p.2).map (fun q => sparse_softmax_cross_entropy q.2 q.1))
  let mask := sequence_mask sess_length maxLen
  reduce_mean (boolean_mask crossent mask)

/-- Embedding of `HModel.compute_accuracy`: per-position equality of the
predicted and target labels cast to float, masked by the session-length
mask, then `tf.reduce_mean` over the kept entries. -/
def compute_accuracy (maxLen : ℕ) (labels : List (List ℕ))
    (target : List (List ℕ)) (sess_length : List ℕ) : ℝ :=
  let correct_pred := (labels.zip target).map
    (fun p => (p.1.zip p.2).map (fun q => if q.1 = q.2 then (1 : ℝ) else 0))
  let mask := sequence_mask sess_length maxLen
  reduce_mean (boolean_mask correct_pred mask)

/-- Embedding of `HModel.compute_probabilities`: softmax over the class axis
at every position of the logits grid. -/
def compute_probabilities (logits : List (List (List ℝ))) : List (List (List ℝ)) :=
  logits.map (fun sess => sess.map softmax)

/-- Embedding of `HModel.compute_labels`: argmax over the last (class) axis
of `compute_probabilities logits`. -/
def compute_labels (logits : List (List (List ℝ))) : List (List ℕ) :=
  (compute_probabilities logits).map (fun sess => sess.map argmaxIdx)

/-- Embedding of the loss branch of `HModel.build_network`: in INFER mode the
loss is skipped entirely (`None`), otherwise `compute_loss` is evaluated. -/
def build_network_loss (mode : Mode) (maxLen : ℕ) (logits : List (List (List ℝ)))
    (target : List (List ℕ)) (sess_length : List ℕ) : Option ℝ :=
  if mode = Mode.INFER then none
  else some (compute_loss maxLen logits target sess_length)

/-- Embedding of the first reshape in `HModel.build_network`
(`tf.reshape(input, [-1, last_dim])`): the leading batch and session
dimensions are collapsed in row-major order. -/
def reshape_flatten {α : Type} (input : List (List α)) : List α :=
  input.flatten

/-- Embedding of the second reshape in `HModel.build_network`
(`tf.reshape(utterances_embs, [batch_size, max_sess_length, d])`): the flat
list of per-utterance vectors is regrouped into `batch` rows of `s`
consecutive entries. -/
def reshape_unflatten {α : Type} (batch : ℕ) (s : ℕ) (xs : List α) : List (List α) :=
  match batch with
  | 0 => []
  | b + 1 => xs.take s :: reshape_unflatten b s (xs.drop s)

end HModel

namespace Main

/-- Embedding of `check_hparams` from `main.py`; `true` means the
`ValueError` for a missing vocabulary is raised.  The source tests the
architecture strings `"h-rnn-rnn"` and `"h-cnn-rnn"` verbatim. -/
def check_hparams_raises (model_architecture : String) (vocab_path : Option String) : Bool :=
  (model_architecture == "h-rnn-rnn" || model_architecture == "h-cnn-rnn")
    && vocab_path.isNone

/-- Architecture names documented by the `--model_architecture` CLI flag in
`add_arguments` (`"h-rnn-rnn | h-rnn-ffn | h-rnn-cnn | rnn |ffn"`). -/
def cli_architectures : List String :=
  ["h-rnn-rnn", "h-rnn-ffn", "h-rnn-cnn", "rnn", "ffn"]

/-- CLI-recognized architectures whose utterance encoder is sequential
(RNN or CNN) and therefore embeds token ids from a vocabulary. -/
def sequential_encoder_architectures : List String :=
  ["h-rnn-rnn", "h-rnn-cnn"]

end Main

/-- Result type of a `compute_probabilities` accessor: either a tensor of
per-class distributions or the `tf.no_op()` sentinel. -/
inductive ProbOutput
  | dist (p : List (List (List ℝ)))
  | noOp

namespace CRF

/-- Embedding of `H_RNN_RNN_CRF.compute_probabilities`: the source returns
`tf.no_op()` for every input. -/
def compute_probabilities (_logits : List (List (List ℝ))) : ProbOutput :=
  ProbOutput.noOp

end CRF

namespace CRF

/-- Unary score of class `c` at one position, read from that position's row
of per-class scores (out-of-range classes score 0). -/
def unary_score (xt : List ℝ) (c : ℕ) : ℝ := xt.getD c 0

/-- Pairwise transition score from class `p` to class `c` in the learned
transition matrix. -/
def transition_score (A : List (List ℝ)) (p c : ℕ) : ℝ := (A.getD p []).getD c 0

/-- Score of a tag path: the sum of per-position unary scores plus the
pairwise transition scores along the path; `prev` is the tag preceding the
first remaining position (`none` at the start of the sequence). -/
def chain_score (A : List (List ℝ)) : Option ℕ → List (List ℝ) → List ℕ → ℝ
  | _, [], _ => 0
  | _, _ :: _, [] => 0
  | prev, xt :: xs, yt :: ys =>
    (match prev with
     | none => 0
     | some p => transition_score A p yt) + unary_score xt yt
      + chain_score A (some yt) xs ys

/-- All tag sequences of a given length over `numClasses` classes. -/
def all_sequences (numClasses : ℕ) : ℕ → List (List ℕ)
  | 0 => [[]]
  | n + 1 =>
    (List.range numClasses).flatMap
      (fun c => (all_sequences numClasses n).map (fun s => c :: s))

/-- Log of the CRF partition function over a session's valid prefix: the log
of the summed exponentiated path scores over all tag sequences of the
prefix's length (the contract of `tf.contrib.crf.crf_log_norm`). -/
def log_norm (A : List (List ℝ)) (numClasses : ℕ) (x : List (List ℝ)) : ℝ :=
  Real.log (((all_sequences numClasses x.length).map
    (fun y => Real.exp (chain_score A none x y))).sum)

/-- Embedding of `tf.contrib.crf.crf_log_likelihood` for one session: the
score of the true tag path over the valid prefix of length `len`, normalized
by the partition function over all paths of that length. -/
def crf_log_likelihood (A : List (List ℝ)) (numClasses : ℕ)
    (x : List (List ℝ)) (y : List ℕ) (len : ℕ) : ℝ :=
  chain_score A none (x.take len) (y.take len) - log_norm A numClasses (x.take len)

/-- Embedding of `H_RNN_RNN_CRF.compute_loss`: the mean over the batch of the
negative sequence log-likelihood. -/
def compute_loss (A : List (List ℝ)) (numClasses : ℕ)
    (logits : List (List (List ℝ))) (target : List (List ℕ))
    (sess_length : List ℕ) : ℝ :=
  reduce_mean (((logits.zip target).zip sess_length).map
    (fun p => -crf_log_likelihood A numClasses p.1.1 p.1.2 p.2))

/-- First maximal entry of a list of scored alternatives, ties preferring the
earlier entry (as `tf.argmax` does). -/
def best_pair {β : Type} : List (ℝ × β) → Option (ℝ × β)
  | [] => none
  | p :: ps =>
    match best_pair ps with
    | none => some p
    | some q => if p.1 < q.1 then some q else some p

/-- One forward step of the Viterbi recursion inside
`tf.contrib.crf.crf_decode`: for every class `j`, the best committed path is
extended by the transition into `j` and the unary score of `j` at the new
position.  The class a committed path ends in is its last tag. -/
def viterbi_step (A : List (List ℝ)) (numClasses : ℕ)
    (acc : List (ℝ × List ℕ)) (xt : List ℝ) : List (ℝ × List ℕ) :=
  (List.range numClasses).map (fun j =>
    match best_pair (acc.map
        (fun p => (p.1 + transition_score A (p.2.getLastD 0) j, p.2))) with
    | some b => (b.1 + unary_score xt j, b.2 ++ [j])
    | none => (unary_score xt j, [j]))

/-- Embedding of `tf.contrib.crf.crf_decode` on one session's valid prefix:
Viterbi initialisation with the first position's unary scores, the forward
recursion over the remaining positions, and selection of the path with the
best final score. -/
def crf_decode (A : List (List ℝ)) (numClasses : ℕ) : List (List ℝ) → List ℕ
  | [] => []
  | x0 :: xs =>
    match best_pair (xs.foldl (viterbi_step A numClasses)
        ((List.range numClasses).map (fun j => (unary_score x0 j, [j])))) with
    | some b => b.2
    | none => []

/-- Embedding of `H_RNN_RNN_CRF.compute_labels`: `crf_decode` applied to each
session's valid prefix. -/
def compute_labels (A : List (List ℝ)) (numClasses : ℕ)
    (logits : List (List (List ℝ))) (sess_length : List ℕ) : List (List ℕ) :=
  (logits.zip sess_length).map (fun p => crf_decode A numClasses (p.1.take p.2))

/-- Attribute slot `self.transition_params` of the CRF model object; `none`
models an attribute that was never assigned. -/
structure ModelState where
  transition_params : Option (List (List ℝ))

/-- Side effect of `H_RNN_RNN_CRF.compute_loss`: computing the loss also
assigns `self.transition_params` (returned by `crf_log_likelihood`). -/
def compute_loss_assign (A : List (List ℝ)) (numClasses : ℕ)
    (logits : List (List (List ℝ))) (target : List (List ℕ))
    (sess_length : List ℕ) : ℝ × ModelState :=
  (compute_loss A numClasses logits target sess_length, ⟨some A⟩)

/-- Loss branch of `HModel.build_network` as inherited by the CRF subclass:
INFER skips `compute_loss` entirely, so `self.transition_params` is never
assigned. -/
def build_network (mode : Mode) (A : List (List ℝ)) (numClasses : ℕ)
    (logits : List (List (List ℝ))) (target : List (List ℕ))
    (sess_length : List ℕ) : Option ℝ × ModelState :=
  match mode with
  | Mode.INFER => (none, ⟨none⟩)
  | _ =>
    let r := compute_loss_assign A numClasses logits target sess_length
    (some r.1, r.2)

/-- `H_RNN_RNN_CRF.compute_labels` as invoked on the model object: it reads
`self.transition_params`, which fails (an `AttributeError`) when the
attribute was never assigned — modelled by a `none` result. -/
def compute_labels_st (st : ModelState) (numClasses : ℕ)
    (logits : List (List (List ℝ))) (sess_length : List ℕ) :
    Option (List (List ℕ)) :=
  st.transition_params.map (fun A => compute_labels A numClasses logits sess_length)

end CRF

/-- Invariant of the Viterbi forward pass: after consuming the prefix `w`,
the accumulator has one entry per class, and the entry for class `j` carries
a maximal-score tag path of the length of `w` ending in `j`, together with
its score. -/
def GoodAcc (A : List (List ℝ)) (numClasses : ℕ) (w : List (List ℝ))
    (acc : List (ℝ × List ℕ)) : Prop :=
  acc.length = numClasses ∧
  ∀ j, j < numClasses →
    (acc.getD j (0, [])).2.length = w.length
    ∧ (∀ c ∈ (acc.getD j (0, [])).2, c < numClasses)
    ∧ (acc.getD j (0, [])).2.getLast? = some j
    ∧ (acc.getD j (0, [])).1 = CRF.chain_score A none w (acc.getD j (0, [])).2
    ∧ ∀ q : List ℕ, q.length = w.length → (∀ c ∈ q, c < numClasses) →
        q.getLast? = some j →
        CRF.chain_score A none w q ≤ (acc.getD j (0, [])).1

/-- Modelled from the spec: the claimed loss for the independent-softmax
strategy — per-position cross-entropy summed over exactly the valid
positions (position `j` of session `i` is valid iff `j < lens[i]`) and
divided by the number of valid positions. -/
def spec_masked_mean_loss (logits : List (List (List ℝ)))
    (target : List (List ℕ)) (lens : List ℕ) : ℝ :=
  (((logits.zip target).zip lens).map
    (fun p => (((p.1.1.zip p.1.2).take p.2).map
      (fun q => sparse_softmax_cross_entropy q.2 q.1)).sum)).sum / (lens.sum : ℝ)

/-- Modelled from the spec wording of claim C10: the number of valid
positions at which the predicted label equals the target label. -/
def spec_valid_match_count (labels : List (List ℕ)) (target : List (List ℕ))
    (lens : List ℕ) : ℕ :=
  (((labels.zip target).zip lens).map
    (fun p => ((p.1.1.zip p.1.2).take p.2).countP (fun q => q.1 == q.2))).sum

/-- Claim C5: `check_hparams` raises for `h-rnn-rnn` without a vocabulary but
not for `h-rnn-cnn`, because the source compares against the string
`"h-cnn-rnn"`, a name that is not among the CLI's documented architectures.
The claim that both sequential architectures fail fast is refuted by the
`h-rnn-cnn` case. -/
theorem claim_C5_vocab_check_misses_h_rnn_cnn :
    Main.check_hparams_raises "h-rnn-rnn" none = true
    ∧ Main.check_hparams_raises "h-rnn-cnn" none = false
    ∧ "h-rnn-cnn" ∈ Main.cli_architectures
    ∧ "h-rnn-cnn" ∈ Main.sequential_encoder_architectures
    ∧ "h-cnn-rnn" ∉ Main.cli_architectures := by
  refine ⟨rfl, rfl, ?_, ?_, ?_⟩ <;> decide

/-- Flattened row-major indexing: in a grid whose rows all have length `S`,
the element at session `i`, position `j` sits at flat index `i * S + j`. -/
theorem reshape_flatten_getD {α : Type} (S : ℕ) :
    ∀ (x : List (List α)) (i j : ℕ) (d : α), (∀ r ∈ x, r.length = S) →
      i < x.length → j < S →
      (HModel.reshape_flatten x).getD (i * S + j) d = (x.getD i []).getD j d := by
  intro x
  induction x with
  | nil => intro i j d _ hi _; exact absurd hi (Nat.not_lt_zero i)
  | cons r xs ih =>
    intro i j d hrows hi hj
    have hr : r.length = S := hrows r (List.mem_cons_self r xs)
    match i with
    | 0 =>
      simp only [HModel.reshape_flatten, List.flatten_cons, Nat.zero_mul, Nat.zero_add,
        List.getD_cons_zero]
      exact List.getD_append r xs.flatten d j (hr ▸ hj)
    | i + 1 =>
      have harith : (i + 1) * S + j = r.length + (i * S + j) := by
        rw [hr]; ring
      simp only [HModel.reshape_flatten, List.flatten_cons, List.getD_cons_succ, harith]
      rw [List.getD_append_right r xs.flatten d _ (Nat.le_add_right _ _),
        Nat.add_sub_cancel_left]
      exact ih i j d (fun s hs => hrows s (List.mem_cons_of_mem r hs)) (Nat.lt_of_succ_lt_succ hi) hj

/-- Regrouping a row-major flattened-and-mapped grid into rows of length `S`
restores every row (the flatten/unflatten pair is a round trip). -/
theorem reshape_unflatten_flatten_map {α β : Type} (S : ℕ) (f : α → β) :
    ∀ x : List (List α), (∀ r ∈ x, r.length = S) →
      HModel.reshape_unflatten x.length S ((HModel.reshape_flatten x).map f)
        = x.map (fun r => r.map f) := by
  intro x
  induction x with
  | nil => intro _; rfl
  | cons r xs ih =>
    intro hrows
    have hr : (r.map f).length = S := by
      simp [hrows r (List.mem_cons_self r xs)]
    simp only [HModel.reshape_flatten, List.flatten_cons, List.length_cons, List.map_append,
      HModel.reshape_unflatten, List.map_cons]
    rw [List.take_left' hr, List.drop_left' hr]
    exact congrArg _ (ih (fun s hs => hrows s (List.mem_cons_of_mem r hs)))

/-- Claim C8: the orchestrator's reshape between utterance granularity and
session granularity preserves row-major ordering: utterance `(i, j)` occupies
flat row `i * S + j`, and reshaping a per-row encoder output back to
`[batch, S, d]` restores each embedding to position `(i, j)`; in particular
the flatten/unflatten pair is a round trip. -/
theorem claim_C8_reshape_row_major {α β : Type} (f : α → β) (x : List (List α))
    (B S : ℕ) (hB : x.length = B) (hrows : ∀ r ∈ x, r.length = S) :
    (∀ i j d, i < B → j < S →
      (HModel.reshape_flatten x).getD (i * S + j) d = (x.getD i []).getD j d)
    ∧ HModel.reshape_unflatten B S ((HModel.reshape_flatten x).map f)
        = x.map (fun r => r.map f)
    ∧ HModel.reshape_unflatten B S (HModel.reshape_flatten x) = x := by
  subst hB
  refine ⟨fun i j d hi hj => reshape_flatten_getD S x i j d hrows hi hj,
    reshape_unflatten_flatten_map S f x hrows, ?_⟩
  have h := reshape_unflatten_flatten_map S (fun a : α => a) x hrows
  simpa [List.map_id] using h

/-- Witness for claim C8 on a concrete 3-session batch with 2 utterances per
session. -/
theorem claim_C8_witness :
    (HModel.reshape_flatten [[10, 20], [30, 40], [50, 60]]).getD (2 * 2 + 1) 0
        = (([[10, 20], [30, 40], [50, 60]] : List (List ℕ)).getD 2 []).getD 1 0
    ∧ HModel.reshape_unflatten 3 2
        (HModel.reshape_flatten [[10, 20], [30, 40], [50, 60]])
        = [[10, 20], [30, 40], [50, 60]] := by
  have h := claim_C8_reshape_row_major (fun n : ℕ => n)
    [[10, 20], [30, 40], [50, 60]] 3 2 (by decide) (by decide)
  exact ⟨h.1 2 1 0 (by decide) (by decide), h.2.2⟩

/-- A row masked by an all-false mask keeps nothing. -/
theorem filterMap_mask_false {α : Type} :
    ∀ (row : List α) (mask : List Bool), (∀ b ∈ mask, b = false) →
      (row.zip mask).filterMap (fun q => if q.2 then some q.1 else none) = [] := by
  intro row
  induction row with
  | nil => intro mask _; simp
  | cons x xs ih =>
    intro mask hmask
    cases mask with
    | nil => simp
    | cons b bs =>
      have hb : b = false := hmask b (List.mem_cons_self b bs)
      subst hb
      simpa using ih bs (fun c hc => hmask c (List.mem_cons_of_mem _ hc))

/-- Masking one row with its sequence mask keeps exactly its first `len`
entries. -/
theorem masked_row_eq_take {α : Type} :
    ∀ (row : List α) (len : ℕ), len ≤ row.length →
      (row.zip (sequence_mask_row len row.length)).filterMap
        (fun q => if q.2 then some q.1 else none) = row.take len := by
  intro row
  induction row with
  | nil =>
    intro len hlen
    simp [sequence_mask_row]
  | cons x xs ih =>
    intro len hlen
    have hmask : sequence_mask_row len (x :: xs).length
        = decide (0 < len) :: (List.range xs.length).map (fun j => decide (j + 1 < len)) := by
      simp only [sequence_mask_row, List.length_cons, List.range_succ_eq_map,
        List.map_cons, List.map_map]
      rfl
    cases len with
    | zero =>
      rw [hmask]
      simp only [List.take_zero]
      have h0 : (decide (0 < 0) : Bool) = false := by decide
      rw [h0]
      have : ((x :: xs).zip
          (false :: (List.range xs.length).map (fun j => decide (j + 1 < 0)))) =
          (x, false) :: xs.zip ((List.range xs.length).map (fun j => decide (j + 1 < 0))) := rfl
      rw [this, List.filterMap_cons]
      simp only [if_neg Bool.false_ne_true]
      exact filterMap_mask_false xs _ (by
        intro b hb
        rcases List.mem_map.mp hb with ⟨j, _, hj⟩
        simpa using hj.symm)
    | succ l =>
      rw [hmask]
      have h1 : (decide (0 < l + 1) : Bool) = true := by simp
      have h2 : (fun j => decide (j + 1 < l + 1)) = (fun j => decide (j < l)) := by
        funext j; simp [Nat.succ_lt_succ_iff]
      rw [h1, h2]
      have hzip : ((x :: xs).zip
          (true :: (List.range xs.length).map (fun j => decide (j < l)))) =
          (x, true) :: xs.zip ((List.range xs.length).map (fun j => decide (j < l))) := rfl
      rw [hzip, List.filterMap_cons]
      simp only [if_pos rfl]
      have hx := ih l (Nat.succ_le_succ_iff.mp (by simpa using hlen))
      rw [List.take_succ_cons]
      exact congrArg (x :: ·) (by
        simpa [sequence_mask_row] using hx)

/-- `boolean_mask` with a sequence mask keeps, per session, exactly the valid
prefix, flattened in row-major order. -/
theorem boolean_mask_sequence_eq {α : Type} :
    ∀ (xs : List (List α)) (lens : List ℕ) (maxLen : ℕ),
      xs.length = lens.length → (∀ r ∈ xs, r.length = maxLen) →
      (∀ l ∈ lens, l ≤ maxLen) →
      boolean_mask xs (sequence_mask lens maxLen)
        = ((xs.zip lens).map (fun p => p.1.take p.2)).flatten := by
  intro xs
  induction xs with
  | nil =>
    intro lens maxLen hlen _ _
    have : lens = [] := List.length_eq_zero.mp (hlen.symm ▸ rfl)
    subst this
    rfl
  | cons r rs ih =>
    intro lens maxLen hlen hrows hl
    cases lens with
    | nil => simp at hlen
    | cons len lens' =>
      have hr : r.length = maxLen := hrows r (List.mem_cons_self r rs)
      have hmasked : (r.zip (sequence_mask_row len maxLen)).filterMap
          (fun q => if q.2 then some q.1 else none) = r.take len := by
        rw [← hr]
        exact masked_row_eq_take r len (hr ▸ hl len (List.mem_cons_self len lens'))
      have htail := ih lens' maxLen (by simpa using hlen)
        (fun s hs => hrows s (List.mem_cons_of_mem r hs))
        (fun l hll => hl l (List.mem_cons_of_mem len hll))
      simp only [boolean_mask, sequence_mask, List.map_cons, List.zip_cons_cons,
        List.flatten_cons] at htail ⊢
      rw [hmasked, htail]

/-- Length of the flattened valid prefixes: the total number of valid
positions, the sum of the session lengths. -/
theorem flatten_takes_length {α : Type} :
    ∀ (xs : List (List α)) (lens : List ℕ) (maxLen : ℕ),
      xs.length = lens.length → (∀ r ∈ xs, r.length = maxLen) →
      (∀ l ∈ lens, l ≤ maxLen) →
      (((xs.zip lens).map (fun p => p.1.take p.2)).flatten).length = lens.sum := by
  intro xs
  induction xs with
  | nil =>
    intro lens maxLen hlen _ _
    have : lens = [] := List.length_eq_zero.mp (hlen.symm ▸ rfl)
    subst this
    rfl
  | cons r rs ih =>
    intro lens maxLen hlen hrows hl
    cases lens with
    | nil => simp at hlen
    | cons len lens' =>
      have hr : r.length = maxLen := hrows r (List.mem_cons_self r rs)
      have hlenr : (r.take len).length = len := by
        rw [List.length_take]
        exact Nat.min_eq_left (hr ▸ hl len (List.mem_cons_self len lens'))
      have htail := ih lens' maxLen (by simpa using hlen)
        (fun s hs => hrows s (List.mem_cons_of_mem r hs))
        (fun l hll => hl l (List.mem_cons_of_mem len hll))
      simp only [List.zip_cons_cons, List.map_cons, List.flatten_cons,
        List.length_append, List.sum_cons, hlenr, htail]

/-- Mean of a sequence-masked grid: the sum over the valid prefixes divided
by the number of valid positions. -/
theorem masked_mean_formula (xs : List (List ℝ)) (lens : List ℕ) (maxLen : ℕ)
    (hlen : xs.length = lens.length) (hrows : ∀ r ∈ xs, r.length = maxLen)
    (hl : ∀ l ∈ lens, l ≤ maxLen) :
    reduce_mean (boolean_mask xs (sequence_mask lens maxLen))
      = ((xs.zip lens).map (fun p => (p.1.take p.2).sum)).sum / (lens.sum : ℝ) := by
  rw [boolean_mask_sequence_eq xs lens maxLen hlen hrows hl, reduce_mean,
    flatten_takes_length xs lens maxLen hlen hrows hl, List.sum_flatten,
    List.map_map]
  rfl

/-- The independent-softmax loss equals the spec's masked mean: cross-entropy
summed over the valid prefixes and divided by the number of valid positions. -/
theorem independent_loss_eq_spec (maxLen : ℕ)
    (logits : List (List (List ℝ))) (target : List (List ℕ)) (lens : List ℕ)
    (hlg : logits.length = lens.length) (htg : target.length = lens.length)
    (hlr : ∀ r ∈ logits, r.length = maxLen) (htr : ∀ r ∈ target, r.length = maxLen)
    (hl : ∀ l ∈ lens, l ≤ maxLen) :
    HModel.compute_loss maxLen logits target lens
      = spec_masked_mean_loss logits target lens := by
  unfold HModel.compute_loss spec_masked_mean_loss
  have hcross_len : ((logits.zip target).map
      (fun p : List (List ℝ) × List ℕ => (p.1.zip p.2).map
        (fun q => sparse_softmax_cross_entropy q.2 q.1))).length = lens.length := by
    simp [List.length_zip, hlg, htg]
  have hcross_rows : ∀ r ∈ (logits.zip target).map
      (fun p : List (List ℝ) × List ℕ => (p.1.zip p.2).map
        (fun q => sparse_softmax_cross_entropy q.2 q.1)), r.length = maxLen := by
    intro r hr
    rcases List.mem_map.mp hr with ⟨p, hp, hpr⟩
    have hmem := List.of_mem_zip hp
    subst hpr
    simp [List.length_zip, hlr p.1 hmem.1, htr p.2 hmem.2]
  rw [masked_mean_formula _ lens maxLen hcross_len hcross_rows hl,
    List.zip_map_left, List.map_map]
  congr 1
  refine congrArg List.sum ?_
  apply List.map_congr_left
  intro p _
  simp only [Function.comp, Prod.map, id]
  rw [← List.map_take]

/-- Claim C1: for the independent-softmax strategy, `compute_loss` equals the
arithmetic mean of per-position cross-entropy taken over exactly the valid
positions (position `j` of session `i` is valid iff `j < lens[i]`): the sum
of cross-entropies over the valid prefixes divided by the number of valid
positions, never over the full padded grid. -/
theorem claim_C1_independent_loss_masked_mean (maxLen : ℕ)
    (logits : List (List (List ℝ))) (target : List (List ℕ)) (lens : List ℕ)
    (hlg : logits.length = lens.length) (htg : target.length = lens.length)
    (hlr : ∀ r ∈ logits, r.length = maxLen) (htr : ∀ r ∈ target, r.length = maxLen)
    (hl : ∀ l ∈ lens, l ≤ maxLen) :
    HModel.compute_loss maxLen logits target lens
      = spec_masked_mean_loss logits target lens :=
  independent_loss_eq_spec maxLen logits target lens hlg htg hlr htr hl

/-- Witness for claim C1 at end-to-end scenario A: two sessions with lengths
2 and 3 padded to a 3-position grid with 4 classes; the divisor of the mean
is the 5 valid positions, never 6. -/
theorem claim_C1_witness :
    HModel.compute_loss 3
        [[[1, 0, 0, 0], [0, 1, 0, 0], [0, 0, 1, 0]],
         [[0, 0, 0, 1], [1, 0, 0, 0], [0, 1, 0, 0]]]
        [[0, 1, 2], [3, 0, 1]] [2, 3]
      = spec_masked_mean_loss
        [[[1, 0, 0, 0], [0, 1, 0, 0], [0, 0, 1, 0]],
         [[0, 0, 0, 1], [1, 0, 0, 0], [0, 1, 0, 0]]]
        [[0, 1, 2], [3, 0, 1]] [2, 3]
    ∧ ([2, 3] : List ℕ).sum = 5 := by
  refine ⟨claim_C1_independent_loss_masked_mean 3 _ _ _ ?_ ?_ ?_ ?_ ?_, by decide⟩
  · decide
  · decide
  · decide
  · decide
  · decide

/-- take commutes with zip componentwise. -/
theorem zip_take_comm {α β : Type} (a : List α) (b : List β) (n : ℕ) :
    (a.zip b).take n = (a.take n).zip (b.take n) := by
  simp [List.zip, List.take_zipWith]

/-- Grids that agree on every session's valid prefix are mapped to the same
list by any per-session function that only reads the valid prefix. -/
theorem map_zip_congr_of_take_eq {α β γ : Type} (F : List α → List β → ℕ → γ)
    (hF : ∀ a a' b b' n, a.take n = a'.take n → b.take n = b'.take n →
      F a b n = F a' b' n) :
    ∀ (lens : List ℕ) (xs xs' : List (List α)) (ys ys' : List (List β)),
      xs.length = lens.length → xs'.length = lens.length →
      ys.length = lens.length → ys'.length = lens.length →
      (xs.zip lens).map (fun p => p.1.take p.2)
        = (xs'.zip lens).map (fun p => p.1.take p.2) →
      (ys.zip lens).map (fun p => p.1.take p.2)
        = (ys'.zip lens).map (fun p => p.1.take p.2) →
      ((xs.zip ys).zip lens).map (fun p => F p.1.1 p.1.2 p.2)
        = ((xs'.zip ys').zip lens).map (fun p => F p.1.1 p.1.2 p.2) := by
  intro lens
  induction lens with
  | nil =>
    intro xs xs' ys ys' _ _ _ _ _ _
    simp [List.zip_nil_right]
  | cons n lens ih =>
    intro xs xs' ys ys' h1 h2 h3 h4 hx hy
    cases xs with
    | nil => simp at h1
    | cons a xs =>
      cases xs' with
      | nil => simp at h2
      | cons a' xs' =>
        cases ys with
        | nil => simp at h3
        | cons b ys =>
          cases ys' with
          | nil => simp at h4
          | cons b' ys' =>
            simp only [List.zip_cons_cons, List.map_cons, List.cons.injEq] at hx hy ⊢
            exact ⟨hF a a' b b' n hx.1 hy.1,
              ih xs xs' ys ys' (by simpa using h1) (by simpa using h2)
                (by simpa using h3) (by simpa using h4) hx.2 hy.2⟩

/-- Sum of the 0/1 indicator floats over a list of label pairs equals the
number of matching pairs. -/
theorem sum_indicator_eq_countP :
    ∀ l : List (ℕ × ℕ),
      (l.map (fun q => if q.1 = q.2 then (1 : ℝ) else 0)).sum
        = (l.countP (fun q => q.1 == q.2) : ℝ) := by
  intro l
  induction l with
  | nil => simp
  | cons a l ih =>
    simp only [List.map_cons, List.sum_cons, List.countP_cons, ih]
    by_cases h : a.1 = a.2
    · simp [h, add_comm]
    · simp [h]

/-- The independent-softmax accuracy as a fraction: matching valid positions
over total valid positions. -/
theorem accuracy_formula (maxLen : ℕ) (labels target : List (List ℕ))
    (lens : List ℕ)
    (hlb : labels.length = lens.length) (htg : target.length = lens.length)
    (hbr : ∀ r ∈ labels, r.length = maxLen) (htr : ∀ r ∈ target, r.length = maxLen)
    (hl : ∀ l ∈ lens, l ≤ maxLen) :
    HModel.compute_accuracy maxLen labels target lens
      = (spec_valid_match_count labels target lens : ℝ) / (lens.sum : ℝ) := by
  unfold HModel.compute_accuracy spec_valid_match_count
  have hrows : ∀ r ∈ (labels.zip target).map
      (fun p : List ℕ × List ℕ => (p.1.zip p.2).map
        (fun q => if q.1 = q.2 then (1 : ℝ) else 0)), r.length = maxLen := by
    intro r hr
    rcases List.mem_map.mp hr with ⟨p, hp, hpr⟩
    have hmem := List.of_mem_zip hp
    subst hpr
    simp [List.length_zip, hbr p.1 hmem.1, htr p.2 hmem.2]
  have hlenc : ((labels.zip target).map
      (fun p : List ℕ × List ℕ => (p.1.zip p.2).map
        (fun q => if q.1 = q.2 then (1 : ℝ) else 0))).length = lens.length := by
    simp [List.length_zip, hlb, htg]
  rw [masked_mean_formula _ lens maxLen hlenc hrows hl,
    List.zip_map_left, List.map_map]
  congr 1
  rw [Nat.cast_list_sum, List.map_map]
  refine congrArg List.sum ?_
  apply List.map_congr_left
  intro p _
  simp only [Function.comp, Prod.map, id]
  rw [← List.map_take, sum_indicator_eq_countP]

/-- Claim C10: `compute_accuracy` is the fraction of valid positions at which
the predicted label equals the target label (position `j` of session `i` is
counted iff `j < lens[i]`), and it is invariant to predicted and target
values at padding positions. -/
theorem claim_C10_accuracy_valid_fraction (maxLen : ℕ)
    (labels labels' target target' : List (List ℕ)) (lens : List ℕ)
    (hlb : labels.length = lens.length) (hlb' : labels'.length = lens.length)
    (htg : target.length = lens.length) (htg' : target'.length = lens.length)
    (hbr : ∀ r ∈ labels, r.length = maxLen) (hbr' : ∀ r ∈ labels', r.length = maxLen)
    (htr : ∀ r ∈ target, r.length = maxLen) (htr' : ∀ r ∈ target', r.length = maxLen)
    (hl : ∀ l ∈ lens, l ≤ maxLen)
    (hx : (labels.zip lens).map (fun p => p.1.take p.2)
        = (labels'.zip lens).map (fun p => p.1.take p.2))
    (hy : (target.zip lens).map (fun p => p.1.take p.2)
        = (target'.zip lens).map (fun p => p.1.take p.2)) :
    HModel.compute_accuracy maxLen labels target lens
      = (spec_valid_match_count labels target lens : ℝ) / (lens.sum : ℝ)
    ∧ HModel.compute_accuracy maxLen labels target lens
      = HModel.compute_accuracy maxLen labels' target' lens := by
  have hcount : spec_valid_match_count labels target lens
      = spec_valid_match_count labels' target' lens := by
    unfold spec_valid_match_count
    refine congrArg List.sum ?_
    refine map_zip_congr_of_take_eq
      (fun a b n => ((a.zip b).take n).countP (fun q => q.1 == q.2)) ?_
      lens labels labels' target target' hlb hlb' htg htg' hx hy
    intro a a' b b' n h1 h2
    dsimp only
    rw [zip_take_comm, zip_take_comm, h1, h2]
  refine ⟨accuracy_formula maxLen labels target lens hlb htg hbr htr hl, ?_⟩
  rw [accuracy_formula maxLen labels target lens hlb htg hbr htr hl,
    accuracy_formula maxLen labels' target' lens hlb' htg' hbr' htr' hl, hcount]

/-- Witness for claim C10: two 2-session batches (lengths 1 and 2, grid
padded to width 2) that differ only at padding positions. -/
theorem claim_C10_witness :
    HModel.compute_accuracy 2 [[1, 7], [0, 1]] [[1, 8], [0, 2]] [1, 2]
      = (spec_valid_match_count [[1, 7], [0, 1]] [[1, 8], [0, 2]] [1, 2] : ℝ)
        / (([1, 2] : List ℕ).sum : ℝ)
    ∧ HModel.compute_accuracy 2 [[1, 7], [0, 1]] [[1, 8], [0, 2]] [1, 2]
      = HModel.compute_accuracy 2 [[1, 9], [0, 1]] [[1, 5], [0, 2]] [1, 2] := by
  exact claim_C10_accuracy_valid_fraction 2 [[1, 7], [0, 1]] [[1, 9], [0, 1]]
    [[1, 8], [0, 2]] [[1, 5], [0, 2]] [1, 2]
    (by decide) (by decide) (by decide) (by decide) (by decide) (by decide)
    (by decide) (by decide) (by decide) (by decide) (by decide)

/-- Claim C2: for both loss strategies, the computed loss is invariant under
any change to logits or target labels at padding positions: two batches that
agree on every session's valid prefix (same `lens`) produce equal losses,
both for the independent-softmax loss and for the chain-structured loss. -/
theorem claim_C2_loss_padding_invariant (maxLen : ℕ) (A : List (List ℝ))
    (numClasses : ℕ)
    (logits logits' : List (List (List ℝ))) (target target' : List (List ℕ))
    (lens : List ℕ)
    (hlg : logits.length = lens.length) (hlg' : logits'.length = lens.length)
    (htg : target.length = lens.length) (htg' : target'.length = lens.length)
    (hlr : ∀ r ∈ logits, r.length = maxLen) (hlr' : ∀ r ∈ logits', r.length = maxLen)
    (htr : ∀ r ∈ target, r.length = maxLen) (htr' : ∀ r ∈ target', r.length = maxLen)
    (hl : ∀ l ∈ lens, l ≤ maxLen)
    (hx : (logits.zip lens).map (fun p => p.1.take p.2)
        = (logits'.zip lens).map (fun p => p.1.take p.2))
    (hy : (target.zip lens).map (fun p => p.1.take p.2)
        = (target'.zip lens).map (fun p => p.1.take p.2)) :
    HModel.compute_loss maxLen logits target lens
      = HModel.compute_loss maxLen logits' target' lens
    ∧ CRF.compute_loss A numClasses logits target lens
      = CRF.compute_loss A numClasses logits' target' lens := by
  have hFce : ∀ (a a' : List (List ℝ)) (b b' : List ℕ) (n : ℕ),
      a.take n = a'.take n → b.take n = b'.take n →
      (((a.zip b).take n).map (fun q => sparse_softmax_cross_entropy q.2 q.1)).sum
        = (((a'.zip b').take n).map (fun q => sparse_softmax_cross_entropy q.2 q.1)).sum := by
    intro a a' b b' n h1 h2
    rw [zip_take_comm, zip_take_comm, h1, h2]
  have hce := map_zip_congr_of_take_eq
    (fun a b n => (((a.zip b).take n).map
      (fun q => sparse_softmax_cross_entropy q.2 q.1)).sum) hFce
    lens logits logits' target target' hlg hlg' htg htg' hx hy
  have hFcrf : ∀ (a a' : List (List ℝ)) (b b' : List ℕ) (n : ℕ),
      a.take n = a'.take n → b.take n = b'.take n →
      -CRF.crf_log_likelihood A numClasses a b n
        = -CRF.crf_log_likelihood A numClasses a' b' n := by
    intro a a' b b' n h1 h2
    unfold CRF.crf_log_likelihood
    rw [h1, h2]
  have hcrf := map_zip_congr_of_take_eq
    (fun a b n => -CRF.crf_log_likelihood A numClasses a b n) hFcrf
    lens logits logits' target target' hlg hlg' htg htg' hx hy
  constructor
  · rw [independent_loss_eq_spec maxLen logits target lens hlg htg hlr htr hl,
      independent_loss_eq_spec maxLen logits' target' lens hlg' htg' hlr' htr' hl]
    unfold spec_masked_mean_loss
    rw [congrArg List.sum hce]
  · unfold CRF.compute_loss
    rw [congrArg reduce_mean hcrf]

/-- Witness for claim C2: two one-session batches (length 1, grid padded to
width 2, 2 classes) that differ only at the padding position, for both
strategies. -/
theorem claim_C2_witness :
    HModel.compute_loss 2 [[[0, 1], [5, 5]]] [[0, 0]] [1]
      = HModel.compute_loss 2 [[[0, 1], [7, 7]]] [[0, 1]] [1]
    ∧ CRF.compute_loss [[0, 0], [0, 0]] 2 [[[0, 1], [5, 5]]] [[0, 0]] [1]
      = CRF.compute_loss [[0, 0], [0, 0]] 2 [[[0, 1], [7, 7]]] [[0, 1]] [1] := by
  exact claim_C2_loss_padding_invariant 2 [[0, 0], [0, 0]] 2
    [[[0, 1], [5, 5]]] [[[0, 1], [7, 7]]] [[0, 0]] [[0, 1]] [1]
    (by decide) (by decide) (by decide) (by decide) (by decide) (by decide)
    (by decide) (by decide) (by decide) rfl rfl

/-- argmaxIdx stays within bounds on a nonempty list. -/
theorem argmaxIdx_lt_length {α : Type} [LinearOrder α] :
    ∀ xs : List α, xs ≠ [] → argmaxIdx xs < xs.length := by
  intro xs
  induction xs with
  | nil => intro h; exact absurd rfl h
  | cons x xs ih =>
    intro _
    simp only [argmaxIdx, List.length_cons]
    by_cases hxs : xs = []
    · subst hxs; simp [argmaxIdx]
    · by_cases hc : x < xs.getD (argmaxIdx xs) x
      · simp only [if_pos hc]
        exact Nat.succ_lt_succ (ih hxs)
      · simp only [if_neg hc]
        exact Nat.succ_pos _

/-- getD of a mapped list, with the default also mapped. -/
theorem getD_map_default {α β : Type} (f : α → β) :
    ∀ (l : List α) (i : ℕ) (d : α), (l.map f).getD i (f d) = f (l.getD i d) := by
  intro l i d
  by_cases h : i < l.length
  · rw [List.getD_eq_getElem _ _ (by simpa using h), List.getD_eq_getElem _ _ h,
      List.getElem_map]
  · rw [List.getD_eq_default _ _ (by simpa using Nat.le_of_not_lt h),
      List.getD_eq_default _ _ (Nat.le_of_not_lt h)]

/-- The first-maximum index is invariant under a strictly monotone map. -/
theorem argmaxIdx_map_strictMono {α β : Type} [LinearOrder α] [LinearOrder β]
    (f : α → β) (hf : StrictMono f) :
    ∀ xs : List α, argmaxIdx (xs.map f) = argmaxIdx xs := by
  intro xs
  induction xs with
  | nil => rfl
  | cons x xs ih =>
    simp only [List.map_cons, argmaxIdx, ih]
    rw [getD_map_default f xs (argmaxIdx xs) x]
    by_cases hc : x < xs.getD (argmaxIdx xs) x
    · rw [if_pos (hf hc), if_pos hc]
    · rw [if_neg (fun hlt => hc (hf.lt_iff_lt.mp hlt)), if_neg hc]

/-- Softmax preserves the position of the first maximum: the softmax map at a
fixed position is a strictly monotone transformation of the logits. -/
theorem argmaxIdx_softmax (v : List ℝ) : argmaxIdx (softmax v) = argmaxIdx v := by
  cases v with
  | nil => rfl
  | cons z zs =>
    have hS : 0 < ((z :: zs).map Real.exp).sum := by
      refine List.sum_pos _ ?_ (by simp)
      intro x hx
      rcases List.mem_map.mp hx with ⟨a, _, rfl⟩
      exact Real.exp_pos a
    have hf : StrictMono (fun t : ℝ => Real.exp t / ((z :: zs).map Real.exp).sum) := by
      intro a b hab
      exact (div_lt_div_iff_of_pos_right hS).mpr (Real.exp_lt_exp.mpr hab)
    exact argmaxIdx_map_strictMono _ hf (z :: zs)

/-- Claim C9: for the independent-softmax strategy, decode commutes with
dropping the softmax: `compute_labels` (argmax over the class axis of
`softmax logits`) equals the per-position argmax of the raw logits, so the
decoded label at every position depends only on the ordering of that
position's logits. -/
theorem claim_C9_decode_commutes_with_softmax :
    ∀ logits : List (List (List ℝ)),
      HModel.compute_labels logits
        = logits.map (fun sess => sess.map argmaxIdx) := by
  intro logits
  unfold HModel.compute_labels HModel.compute_probabilities
  rw [List.map_map]
  apply List.map_congr_left
  intro sess _
  simp only [Function.comp]
  rw [List.map_map]
  apply List.map_congr_left
  intro v _
  exact argmaxIdx_softmax v

/-- Claim C4 (settled as a code defect): in INFER mode the loss is skipped
for every strategy (`build_network` yields `none`); but while the
independent-softmax accessors stay well-defined, the chain-structured decode
reads `self.transition_params`, which only `compute_loss` assigns, so after
an INFER build the decode accessor is unavailable, whereas after a TRAIN
build both the loss and the decode are defined. -/
theorem claim_C4_infer_crf_decode_unavailable (maxLen : ℕ) (A : List (List ℝ))
    (numClasses : ℕ) (logits : List (List (List ℝ))) (target : List (List ℕ))
    (lens : List ℕ) :
    HModel.build_network_loss Mode.INFER maxLen logits target lens = none
    ∧ (CRF.build_network Mode.INFER A numClasses logits target lens).1 = none
    ∧ CRF.compute_labels_st
        (CRF.build_network Mode.INFER A numClasses logits target lens).2
        numClasses logits lens = none
    ∧ (CRF.build_network Mode.TRAIN A numClasses logits target lens).1
        = some (CRF.compute_loss A numClasses logits target lens)
    ∧ CRF.compute_labels_st
        (CRF.build_network Mode.TRAIN A numClasses logits target lens).2
        numClasses logits lens
        = some (CRF.compute_labels A numClasses logits lens) :=
  ⟨rfl, rfl, rfl, rfl, rfl⟩

/-- Mean of a list times its length recovers its sum (also when the list is
empty, with the 0/0 = 0 convention). -/
theorem reduce_mean_mul_length (l : List ℝ) :
    reduce_mean l * (l.length : ℝ) = l.sum := by
  unfold reduce_mean
  by_cases h : l = []
  · subst h; simp
  · exact div_mul_cancel₀ l.sum
      (Nat.cast_ne_zero.mpr (List.length_pos.mpr h).ne')

/-- boolean_mask distributes over an append of sessions when the grid and
the mask are aligned. -/
theorem boolean_mask_append {α : Type} (xs₁ xs₂ : List (List α))
    (m₁ m₂ : List (List Bool)) (h : xs₁.length = m₁.length) :
    boolean_mask (xs₁ ++ xs₂) (m₁ ++ m₂)
      = boolean_mask xs₁ m₁ ++ boolean_mask xs₂ m₂ := by
  unfold boolean_mask
  rw [List.zip_append h, List.map_append, List.flatten_append]

/-- A zero-length session at the head is dropped entirely by the mask. -/
theorem boolean_mask_zero_head {α : Type} (x0 : List α) (xs : List (List α))
    (maxLen : ℕ) (ms : List (List Bool)) :
    boolean_mask (x0 :: xs) (sequence_mask_row 0 maxLen :: ms)
      = boolean_mask xs ms := by
  have h0 : (x0.zip (sequence_mask_row 0 maxLen)).filterMap
      (fun q => if q.2 then some q.1 else none) = [] := by
    refine filterMap_mask_false _ _ ?_
    intro b hb
    simp only [sequence_mask_row] at hb
    rcases List.mem_map.mp hb with ⟨j, _, hj⟩
    simpa using hj.symm
  unfold boolean_mask
  simp only [List.zip_cons_cons, List.map_cons, List.flatten_cons, h0,
    List.nil_append]

/-- Claim C3 as amended: a session of length 0 at any position of an
otherwise valid batch never divides by a zero masked count and contributes a
zero term to both losses; for the independent-softmax strategy the batch loss
equals the loss with that session removed, while for the chain-structured
strategy the zero-length session has log-likelihood exactly 0 but still
counts in the batch-mean divisor, so the with/without losses are related by
the ratio of batch sizes rather than equal. -/
theorem claim_C3_amended_zero_length_session (maxLen : ℕ) (A : List (List ℝ))
    (numClasses : ℕ) (l0 : List (List ℝ)) (t0 : List ℕ)
    (lgPre lgPost : List (List (List ℝ))) (tgPre tgPost : List (List ℕ))
    (lensPre lensPost : List ℕ)
    (hlgPre : lgPre.length = lensPre.length)
    (htgPre : tgPre.length = lensPre.length)
    (hlgPost : lgPost.length = lensPost.length)
    (htgPost : tgPost.length = lensPost.length) :
    HModel.compute_loss maxLen (lgPre ++ l0 :: lgPost) (tgPre ++ t0 :: tgPost)
        (lensPre ++ 0 :: lensPost)
      = HModel.compute_loss maxLen (lgPre ++ lgPost) (tgPre ++ tgPost)
        (lensPre ++ lensPost)
    ∧ CRF.crf_log_likelihood A numClasses l0 t0 0 = 0
    ∧ CRF.compute_loss A numClasses (lgPre ++ l0 :: lgPost)
        (tgPre ++ t0 :: tgPost) (lensPre ++ 0 :: lensPost)
        * (((lensPre ++ lensPost).length : ℝ) + 1)
      = CRF.compute_loss A numClasses (lgPre ++ lgPost) (tgPre ++ tgPost)
        (lensPre ++ lensPost) * ((lensPre ++ lensPost).length : ℝ) := by
  have hpre : lgPre.length = tgPre.length := by rw [hlgPre, htgPre]
  have hll0 : CRF.crf_log_likelihood A numClasses l0 t0 0 = 0 := by
    simp [CRF.crf_log_likelihood, CRF.chain_score, CRF.log_norm,
      CRF.all_sequences, Real.exp_zero]
  have hzipw : (lgPre ++ l0 :: lgPost).zip (tgPre ++ t0 :: tgPost)
      = lgPre.zip tgPre ++ (l0, t0) :: lgPost.zip tgPost := by
    rw [List.zip_append hpre]
    rfl
  have hzipo : (lgPre ++ lgPost).zip (tgPre ++ tgPost)
      = lgPre.zip tgPre ++ lgPost.zip tgPost := List.zip_append hpre
  have hzlen : (lgPre.zip tgPre).length = lensPre.length := by
    simp [List.length_zip, hlgPre, htgPre]
  refine ⟨?_, hll0, ?_⟩
  · unfold HModel.compute_loss
    rw [hzipw, hzipo]
    unfold sequence_mask
    simp only [List.map_append, List.map_cons]
    rw [boolean_mask_append _ _ _ _ (by simp [hzlen]),
      boolean_mask_append _ _ _ _ (by simp [hzlen]),
      boolean_mask_zero_head]
  · unfold CRF.compute_loss
    have hzzw : ((lgPre ++ l0 :: lgPost).zip (tgPre ++ t0 :: tgPost)).zip
        (lensPre ++ 0 :: lensPost)
        = (lgPre.zip tgPre).zip lensPre
          ++ ((l0, t0), 0) :: (lgPost.zip tgPost).zip lensPost := by
      rw [hzipw, List.zip_append hzlen]
      rfl
    have hzzo : ((lgPre ++ lgPost).zip (tgPre ++ tgPost)).zip
        (lensPre ++ lensPost)
        = (lgPre.zip tgPre).zip lensPre ++ (lgPost.zip tgPost).zip lensPost := by
      rw [hzipo, List.zip_append hzlen]
    rw [hzzw, hzzo]
    simp only [List.map_append, List.map_cons]
    rw [hll0, neg_zero]
    have key : ∀ P Q : List ℝ, P.length = lensPre.length →
        Q.length = lensPost.length →
        reduce_mean (P ++ 0 :: Q) * (((lensPre ++ lensPost).length : ℝ) + 1)
          = reduce_mean (P ++ Q) * ((lensPre ++ lensPost).length : ℝ) := by
      intro P Q hP hQ
      have h1 : ((lensPre ++ lensPost).length : ℝ) + 1
          = ((P ++ 0 :: Q).length : ℝ) := by
        simp only [List.length_append, List.length_cons, hP, hQ]
        push_cast
        ring
      have h2 : ((lensPre ++ lensPost).length : ℝ) = ((P ++ Q).length : ℝ) := by
        simp [hP, hQ]
      rw [h1, reduce_mean_mul_length, h2, reduce_mean_mul_length]
      simp
    exact key _ _ (by simp [List.length_zip, hlgPre, htgPre])
      (by simp [List.length_zip, hlgPost, htgPost])

/-- Witness for claim C3 as amended: a zero-length session at index 1,
after a valid length-1 session (2 classes, grid width 1). -/
theorem claim_C3_witness :
    HModel.compute_loss 1 ([[[0, 0]]] ++ [[0, 0]] :: []) ([[0]] ++ [0] :: [])
        ([1] ++ 0 :: [])
      = HModel.compute_loss 1 ([[[0, 0]]] ++ []) ([[0]] ++ []) ([1] ++ [])
    ∧ CRF.crf_log_likelihood [[0, 0], [0, 0]] 2 [[0, 0]] [0] 0 = 0
    ∧ CRF.compute_loss [[0, 0], [0, 0]] 2 ([[[0, 0]]] ++ [[0, 0]] :: [])
        ([[0]] ++ [0] :: []) ([1] ++ 0 :: [])
        * (((([1] : List ℕ) ++ []).length : ℝ) + 1)
      = CRF.compute_loss [[0, 0], [0, 0]] 2 ([[[0, 0]]] ++ []) ([[0]] ++ [])
        ([1] ++ []) * ((([1] : List ℕ) ++ []).length : ℝ) :=
  claim_C3_amended_zero_length_session 1 [[0, 0], [0, 0]] 2 [[0, 0]] [0]
    [[[0, 0]]] [] [[0]] [] [1] []
    (by decide) (by decide) (by decide) (by decide)

/-- Counterexample to claim C3 as stated: for the chain-structured strategy a
zero-length session still counts in the batch-mean divisor, so the batch loss
differs from the loss of the batch with that session removed. -/
theorem claim_C3_counterexample :
    CRF.compute_loss [[0, 0], [0, 0]] 2 [[[0, 0]], [[0, 0]]] [[0], [0]] [0, 1]
      ≠ CRF.compute_loss [[0, 0], [0, 0]] 2 [[[0, 0]]] [[0]] [1] := by
  have hall0 : CRF.all_sequences 2 0 = [[]] := rfl
  have hall1 : CRF.all_sequences 2 1 = [[0], [1]] := rfl
  have hL : CRF.compute_loss [[0, 0], [0, 0]] 2 [[[0, 0]], [[0, 0]]]
      [[0], [0]] [0, 1] = Real.log 2 / 2 := by
    simp only [CRF.compute_loss, CRF.crf_log_likelihood, CRF.log_norm,
      reduce_mean, List.zip_cons_cons, List.zip_nil_right, List.map_cons,
      List.map_nil, List.take]
    rw [show (([] : List (List ℝ)).length) = 0 from rfl,
      show (([[(0 : ℝ), 0]] : List (List ℝ)).length) = 1 from rfl, hall0, hall1]
    simp [CRF.chain_score, CRF.unary_score, Real.exp_zero]
    norm_num
  have hR : CRF.compute_loss [[0, 0], [0, 0]] 2 [[[0, 0]]] [[0]] [1]
      = Real.log 2 := by
    simp only [CRF.compute_loss, CRF.crf_log_likelihood, CRF.log_norm,
      reduce_mean, List.zip_cons_cons, List.zip_nil_right, List.map_cons,
      List.map_nil, List.take]
    rw [show (([[(0 : ℝ), 0]] : List (List ℝ)).length) = 1 from rfl, hall1]
    simp [CRF.chain_score, CRF.unary_score, Real.exp_zero]
    norm_num
  rw [hL, hR]
  intro h
  have hlog : (0 : ℝ) < Real.log 2 := Real.log_pos (by norm_num)
  linarith

/-- best_pair of a nonempty list exists. -/
theorem best_pair_isSome {β : Type} :
    ∀ l : List (ℝ × β), l ≠ [] → ∃ b, CRF.best_pair l = some b := by
  intro l h
  cases l with
  | nil => exact absurd rfl h
  | cons p ps =>
    cases hps : CRF.best_pair ps with
    | none => exact ⟨p, by simp [CRF.best_pair, hps]⟩
    | some q =>
      by_cases hlt : p.1 < q.1
      · exact ⟨q, by simp [CRF.best_pair, hps, hlt]⟩
      · exact ⟨p, by simp [CRF.best_pair, hps, hlt]⟩

/-- best_pair returns an element of its input. -/
theorem best_pair_mem {β : Type} :
    ∀ (l : List (ℝ × β)) (b : ℝ × β), CRF.best_pair l = some b → b ∈ l := by
  intro l
  induction l with
  | nil => intro b hb; simp [CRF.best_pair] at hb
  | cons p ps ih =>
    intro b hb
    simp only [CRF.best_pair] at hb
    cases hps : CRF.best_pair ps with
    | none =>
      rw [hps] at hb
      dsimp only at hb
      rw [← Option.some.inj hb]
      exact List.mem_cons_self p ps
    | some q =>
      rw [hps] at hb
      dsimp only at hb
      by_cases hlt : p.1 < q.1
      · rw [if_pos hlt] at hb
        exact List.mem_cons_of_mem p (ih b (hb ▸ hps))
      · rw [if_neg hlt] at hb
        rw [← Option.some.inj hb]
        exact List.mem_cons_self p ps

/-- best_pair dominates every element's score. -/
theorem best_pair_le {β : Type} :
    ∀ (l : List (ℝ × β)) (b : ℝ × β), CRF.best_pair l = some b →
      ∀ c ∈ l, c.1 ≤ b.1 := by
  intro l
  induction l with
  | nil => intro b _ c hc; simp at hc
  | cons p ps ih =>
    intro b hb c hc
    simp only [CRF.best_pair] at hb
    cases hps : CRF.best_pair ps with
    | none =>
      rw [hps] at hb
      dsimp only at hb
      have hpemp : ps = [] := by
        cases ps with
        | nil => rfl
        | cons r rs =>
          rcases best_pair_isSome (r :: rs) (by simp) with ⟨w, hw⟩
          rw [hw] at hps
          cases hps
      subst hpemp
      have hpb : p = b := Option.some.inj hb
      rcases List.mem_cons.mp hc with rfl | hc'
      · exact le_of_eq (congrArg Prod.fst hpb)
      · simp at hc'
    | some q =>
      rw [hps] at hb
      dsimp only at hb
      have hqb : q.1 ≤ b.1 := by
        by_cases hlt : p.1 < q.1
        · rw [if_pos hlt] at hb
          exact le_of_eq (congrArg Prod.fst (Option.some.inj hb))
        · rw [if_neg hlt] at hb
          exact le_trans (le_of_not_lt hlt)
            (le_of_eq (congrArg Prod.fst (Option.some.inj hb)))
      have hpb1 : p.1 ≤ b.1 := by
        by_cases hlt : p.1 < q.1
        · rw [if_pos hlt] at hb
          exact le_trans (le_of_lt hlt)
            (le_of_eq (congrArg Prod.fst (Option.some.inj hb)))
        · rw [if_neg hlt] at hb
          exact le_of_eq (congrArg Prod.fst (Option.some.inj hb))
      rcases List.mem_cons.mp hc with rfl | hc'
      · exact hpb1
      · exact le_trans (ih q hps c hc') hqb

/-- getD at an in-range index of a map over a range. -/
theorem getD_map_range {α : Type} (f : ℕ → α) (d : α) (C j : ℕ) (h : j < C) :
    ((List.range C).map f).getD j d = f j := by
  rw [List.getD_eq_getElem _ _ (by simpa using h), List.getElem_map,
    List.getElem_range]

/-- getD at an in-range index is a member. -/
theorem getD_mem {α : Type} (l : List α) (j : ℕ) (d : α) (h : j < l.length) :
    l.getD j d ∈ l := by
  rw [List.getD_eq_getElem _ _ h]
  exact List.getElem_mem h

/-- Every member is a getD at some in-range index. -/
theorem mem_getD {α : Type} (l : List α) (b : α) (d : α) (h : b ∈ l) :
    ∃ j, j < l.length ∧ l.getD j d = b := by
  rcases List.mem_iff_get.mp h with ⟨n, hn⟩
  refine ⟨n.1, n.2, ?_⟩
  rw [List.getD_eq_getElem _ _ n.2, ← List.get_eq_getElem]
  exact hn

/-- The default of getLastD is irrelevant on a nonempty list. -/
theorem getLastD_of_getLast? {α : Type} (l : List α) (j : α) (d : α)
    (h : l.getLast? = some j) : l.getLastD d = j := by
  rw [List.getLastD_eq_getLast?, h]
  rfl

/-- Appending one position and one tag adds the transition into the new tag
and the new tag's unary score to the path score. -/
theorem chain_score_snoc (A : List (List ℝ)) :
    ∀ (x : List (List ℝ)) (y : List ℕ) (prev : Option ℕ) (xt : List ℝ) (j : ℕ),
      y.length = x.length → y ≠ [] →
      CRF.chain_score A prev (x ++ [xt]) (y ++ [j])
        = CRF.chain_score A prev x y
          + CRF.transition_score A (y.getLastD 0) j + CRF.unary_score xt j := by
  intro x
  induction x with
  | nil =>
    intro y prev xt j hy hne
    exact absurd (List.length_eq_zero.mp hy) hne
  | cons x0 xs ih =>
    intro y prev xt j hy hne
    cases y with
    | nil => exact absurd rfl hne
    | cons y0 ys =>
      cases ys with
      | nil =>
        have hxs : xs = [] := by
          cases xs with
          | nil => rfl
          | cons a t =>
            exfalso
            simp only [List.length_cons, List.length_nil] at hy
            omega
        subst hxs
        cases prev with
        | none =>
          simp [CRF.chain_score, List.getLastD]
          ring
        | some p =>
          simp [CRF.chain_score, List.getLastD]
          ring
      | cons c cs =>
        have hlen' : (c :: cs).length = xs.length := by
          simpa using hy
        have hih := ih (c :: cs) (some y0) xt j hlen' (by simp)
        have hlast : (y0 :: c :: cs).getLastD 0 = (c :: cs).getLastD 0 := rfl
        simp only [List.cons_append, CRF.chain_score, List.append_eq] at hih ⊢
        rw [hih, hlast]
        ring

/-- The Viterbi initial accumulator satisfies the invariant for the
one-position prefix. -/
theorem viterbi_init_good (A : List (List ℝ)) (C : ℕ) (x0 : List ℝ) :
    GoodAcc A C [x0] ((List.range C).map (fun j => (CRF.unary_score x0 j, [j]))) := by
  constructor
  · simp
  · intro j hj
    rw [getD_map_range _ _ C j hj]
    refine ⟨by simp, ?_, by simp, ?_, ?_⟩
    · intro c hc
      have : c = j := by simpa using hc
      subst this
      exact hj
    · simp [CRF.chain_score]
    · intro q hqlen hqc hqlast
      have hq : q = [j] := by
        cases q with
        | nil => simp at hqlast
        | cons a t =>
          cases t with
          | nil =>
            have : a = j := by simpa using hqlast
            subst this
            rfl
          | cons d u => simp at hqlen
      subst hq
      simp [CRF.chain_score]

/-- One Viterbi forward step preserves the invariant, extending the consumed
prefix by one position. -/
theorem viterbi_step_good (A : List (List ℝ)) (C : ℕ) (hC : 0 < C)
    (w : List (List ℝ)) (acc : List (ℝ × List ℕ)) (xt : List ℝ)
    (h : GoodAcc A C w acc) (hw : w ≠ []) :
    GoodAcc A C (w ++ [xt]) (CRF.viterbi_step A C acc xt) := by
  obtain ⟨hlen, hinv⟩ := h
  constructor
  · simp [CRF.viterbi_step]
  · intro j hj
    have hstep : (CRF.viterbi_step A C acc xt).getD j (0, []) =
        (match CRF.best_pair (acc.map
            (fun p => (p.1 + CRF.transition_score A (p.2.getLastD 0) j, p.2))) with
         | some b => (b.1 + CRF.unary_score xt j, b.2 ++ [j])
         | none => (CRF.unary_score xt j, [j])) := by
      unfold CRF.viterbi_step
      exact getD_map_range _ _ C j hj
    have haccne : acc ≠ [] := by
      intro hnil
      rw [hnil] at hlen
      simp at hlen
      omega
    have hcne : acc.map
        (fun p => (p.1 + CRF.transition_score A (p.2.getLastD 0) j, p.2)) ≠ [] := by
      simpa using haccne
    obtain ⟨b, hb⟩ := best_pair_isSome _ hcne
    rw [hb] at hstep
    dsimp only at hstep
    have hbmem := best_pair_mem _ b hb
    rcases List.mem_map.mp hbmem with ⟨p, hpacc, hpb⟩
    rcases mem_getD acc p (0, []) hpacc with ⟨i, hi, hip⟩
    have hiC : i < C := hlen ▸ hi
    obtain ⟨hplen, hpcls, hplast, hpscore, hpmax⟩ := hinv i hiC
    rw [hip] at hplen hpcls hplast hpscore hpmax
    have hplastD : p.2.getLastD 0 = i := getLastD_of_getLast? p.2 i 0 hplast
    have hpne : p.2 ≠ [] := by
      intro hnil
      rw [hnil] at hplast
      simp at hplast
    rw [hstep, ← hpb]
    dsimp only
    refine ⟨by simp [hplen], ?_, List.getLast?_concat p.2, ?_, ?_⟩
    · intro c hc
      rcases List.mem_append.mp hc with hc1 | hc2
      · exact hpcls c hc1
      · have : c = j := by simpa using hc2
        subst this
        exact hj
    · rw [chain_score_snoc A w p.2 none xt j hplen hpne, ← hpscore]
    · intro q hqlen hqc hqlast
      have hqne : q ≠ [] := by
        intro hnil
        rw [hnil] at hqlast
        simp at hqlast
      have hqlastj : q.getLast hqne = j := by
        have := List.getLast?_eq_getLast q hqne
        rw [hqlast] at this
        exact (Option.some.inj this).symm
      have hqdecomp : q.dropLast ++ [j] = q := by
        rw [← hqlastj]
        exact List.dropLast_append_getLast hqne
      have hq'len : q.dropLast.length = w.length := by
        rw [List.length_dropLast, hqlen]
        simp
      have hwpos : 0 < w.length := List.length_pos.mpr hw
      have hq'ne : q.dropLast ≠ [] := by
        intro hnil
        rw [hnil] at hq'len
        simp at hq'len
        omega
      have hq'last : q.dropLast.getLast? = some (q.dropLast.getLast hq'ne) :=
        List.getLast?_eq_getLast q.dropLast hq'ne
      have hi'C : q.dropLast.getLast hq'ne < C :=
        hqc _ ((List.dropLast_sublist q).subset (List.getLast_mem hq'ne))
      obtain ⟨helen, hecls, helast, hescore, hemax⟩ :=
        hinv (q.dropLast.getLast hq'ne) hi'C
      have hq'cls : ∀ c ∈ q.dropLast, c < C :=
        fun c hc => hqc c ((List.dropLast_sublist q).subset hc)
      have hscoreq' := hemax q.dropLast hq'len hq'cls hq'last
      have hqscore : CRF.chain_score A none (w ++ [xt]) q
          = CRF.chain_score A none w q.dropLast
            + CRF.transition_score A (q.dropLast.getLastD 0) j
            + CRF.unary_score xt j := by
        conv_lhs => rw [← hqdecomp]
        exact chain_score_snoc A w q.dropLast none xt j hq'len hq'ne
      have heD : acc.getD (q.dropLast.getLast hq'ne) (0, []) ∈ acc :=
        getD_mem acc _ (0, []) (hlen ▸ hi'C)
      have hcand := List.mem_map_of_mem
        (fun p => (p.1 + CRF.transition_score A (p.2.getLastD 0) j, p.2)) heD
      have hcandle := best_pair_le _ b hb _ hcand
      dsimp only at hcandle
      have helastD : (acc.getD (q.dropLast.getLast hq'ne) (0, [])).2.getLastD 0
          = q.dropLast.getLast hq'ne := getLastD_of_getLast? _ _ _ helast
      have hq'lastD : q.dropLast.getLastD 0 = q.dropLast.getLast hq'ne :=
        getLastD_of_getLast? _ _ _ hq'last
      rw [hqscore, hq'lastD]
      rw [helastD, ← hpb] at hcandle
      dsimp only at hcandle
      have h2 : CRF.chain_score A none w q.dropLast
            + CRF.transition_score A (q.dropLast.getLast hq'ne) j
          ≤ (acc.getD (q.dropLast.getLast hq'ne) (0, [])).1
            + CRF.transition_score A (q.dropLast.getLast hq'ne) j :=
        add_le_add_right hscoreq' _
      exact add_le_add_right (le_trans h2 hcandle) _

/-- The Viterbi forward recursion preserves the invariant over a whole
suffix of positions. -/
theorem viterbi_foldl_good (A : List (List ℝ)) (C : ℕ) (hC : 0 < C) :
    ∀ (xs : List (List ℝ)) (w : List (List ℝ)) (acc : List (ℝ × List ℕ)),
      GoodAcc A C w acc → w ≠ [] →
      GoodAcc A C (w ++ xs) (xs.foldl (CRF.viterbi_step A C) acc) := by
  intro xs
  induction xs with
  | nil =>
    intro w acc h _
    simpa using h
  | cons xt xs ih =>
    intro w acc h hw
    have h1 := viterbi_step_good A C hC w acc xt h hw
    have h2 := ih (w ++ [xt]) (CRF.viterbi_step A C acc xt) h1 (by simp)
    simpa [List.append_assoc] using h2

/-- Correctness of the embedded `crf_decode` on one session: the returned
tag sequence has the session's length, is over the class range, and its
chain score dominates every tag sequence of that length. -/
theorem crf_decode_spec (A : List (List ℝ)) (C : ℕ) (hC : 0 < C)
    (x : List (List ℝ)) :
    (CRF.crf_decode A C x).length = x.length
    ∧ (∀ c ∈ CRF.crf_decode A C x, c < C)
    ∧ ∀ z : List ℕ, z.length = x.length → (∀ c ∈ z, c < C) →
        CRF.chain_score A none x z ≤ CRF.chain_score A none x (CRF.crf_decode A C x) := by
  cases x with
  | nil =>
    refine ⟨rfl, by simp [CRF.crf_decode], ?_⟩
    intro z hz _
    have : z = [] := List.length_eq_zero.mp hz
    subst this
    exact le_refl _
  | cons x0 xs =>
    have hinit := viterbi_init_good A C x0
    have hfin := viterbi_foldl_good A C hC xs [x0]
      ((List.range C).map (fun j => (CRF.unary_score x0 j, [j]))) hinit (by simp)
    have hsingle : ([x0] ++ xs) = x0 :: xs := rfl
    rw [hsingle] at hfin
    obtain ⟨hflen, hinv⟩ := hfin
    have hfne : xs.foldl (CRF.viterbi_step A C)
        ((List.range C).map (fun j => (CRF.unary_score x0 j, [j]))) ≠ [] := by
      intro hnil
      rw [hnil] at hflen
      simp at hflen
      omega
    obtain ⟨b, hb⟩ := best_pair_isSome _ hfne
    have hdec : CRF.crf_decode A C (x0 :: xs) = b.2 := by
      show (match CRF.best_pair (xs.foldl (CRF.viterbi_step A C)
          ((List.range C).map (fun j => (CRF.unary_score x0 j, [j])))) with
        | some b => b.2
        | none => []) = b.2
      rw [hb]
    have hbmem := best_pair_mem _ b hb
    rcases mem_getD _ b (0, []) hbmem with ⟨jb, hjb, hjbe⟩
    have hjbC : jb < C := hflen ▸ hjb
    obtain ⟨hblen, hbcls, _, hbscore, _⟩ := hinv jb hjbC
    rw [hjbe] at hblen hbcls hbscore
    refine ⟨by rw [hdec]; exact hblen, by rw [hdec]; exact hbcls, ?_⟩
    intro z hzlen hzc
    have hzne : z ≠ [] := by
      intro hnil
      rw [hnil] at hzlen
      simp at hzlen
    have hzlast : z.getLast? = some (z.getLast hzne) :=
      List.getLast?_eq_getLast z hzne
    have hj0C : z.getLast hzne < C := hzc _ (List.getLast_mem hzne)
    obtain ⟨_, _, _, _, hzmax⟩ := hinv (z.getLast hzne) hj0C
    have h1 := hzmax z hzlen hzc hzlast
    have hentry : (xs.foldl (CRF.viterbi_step A C)
        ((List.range C).map (fun j => (CRF.unary_score x0 j, [j])))).getD
          (z.getLast hzne) (0, []) ∈ xs.foldl (CRF.viterbi_step A C)
        ((List.range C).map (fun j => (CRF.unary_score x0 j, [j]))) :=
      getD_mem _ _ (0, []) (by rw [hflen]; exact hj0C)
    have h2 := best_pair_le _ b hb _ hentry
    rw [hdec, ← hbscore]
    exact le_trans h1 h2

/-- The decoded labels accessor at session `i` is the Viterbi decode of that
session's valid prefix. -/
theorem compute_labels_getD (A : List (List ℝ)) (C : ℕ)
    (logits : List (List (List ℝ))) (lens : List ℕ) (i : ℕ)
    (hi : i < logits.length) (hlen : logits.length = lens.length) :
    (CRF.compute_labels A C logits lens).getD i []
      = CRF.crf_decode A C ((logits.getD i []).take (lens.getD i 0)) := by
  unfold CRF.compute_labels
  have hzlen : (logits.zip lens).length = logits.length := by
    simp [List.length_zip, hlen]
  have hiz : i < (logits.zip lens).length := hzlen ▸ hi
  rw [List.getD_eq_getElem _ _ (by simpa [hzlen] using hi), List.getElem_map,
    List.getElem_zip, List.getD_eq_getElem _ _ hi,
    List.getD_eq_getElem _ _ (hlen ▸ hi)]

/-- Claim C6: for every logits grid and transition matrix, the
chain-structured decode returns, for each session, a label sequence of that
session's valid length whose total chain score (per-position class scores
plus pairwise transition scores) is maximal among all label sequences of
that length over the class range: a global best-path search. -/
theorem claim_C6_crf_decode_global_best (A : List (List ℝ)) (numClasses : ℕ)
    (logits : List (List (List ℝ))) (lens : List ℕ) (i : ℕ)
    (hC : 0 < numClasses) (hi : i < logits.length)
    (hlen : logits.length = lens.length) :
    (CRF.compute_labels A numClasses logits lens).getD i []
      = CRF.crf_decode A numClasses ((logits.getD i []).take (lens.getD i 0))
    ∧ ((CRF.compute_labels A numClasses logits lens).getD i []).length
      = ((logits.getD i []).take (lens.getD i 0)).length
    ∧ (∀ c ∈ (CRF.compute_labels A numClasses logits lens).getD i [], c < numClasses)
    ∧ ∀ z : List ℕ,
        z.length = ((logits.getD i []).take (lens.getD i 0)).length →
        (∀ c ∈ z, c < numClasses) →
        CRF.chain_score A none ((logits.getD i []).take (lens.getD i 0)) z
          ≤ CRF.chain_score A none ((logits.getD i []).take (lens.getD i 0))
              ((CRF.compute_labels A numClasses logits lens).getD i []) := by
  have hd := compute_labels_getD A numClasses logits lens i hi hlen
  have hs := crf_decode_spec A numClasses hC
    ((logits.getD i []).take (lens.getD i 0))
  rw [hd]
  exact ⟨rfl, hs.1, hs.2.1, hs.2.2⟩

/-- Witness for claim C6 on a one-session batch of length 2 with 2 classes:
the decoded sequence scores at least as well as the concrete path [0, 0]. -/
theorem claim_C6_witness :
    (CRF.compute_labels [[0, 3], [0, 0]] 2 [[[1, 0], [0, 2]]] [2]).getD 0 []
      = CRF.crf_decode [[0, 3], [0, 0]] 2
          (([[(1 : ℝ), 0], [0, 2]] : List (List ℝ)).take 2)
    ∧ CRF.chain_score [[0, 3], [0, 0]] none
        (([[(1 : ℝ), 0], [0, 2]] : List (List ℝ)).take 2) [0, 0]
      ≤ CRF.chain_score [[0, 3], [0, 0]] none
          (([[(1 : ℝ), 0], [0, 2]] : List (List ℝ)).take 2)
          ((CRF.compute_labels [[0, 3], [0, 0]] 2 [[[1, 0], [0, 2]]] [2]).getD 0 []) := by
  have h := claim_C6_crf_decode_global_best [[0, 3], [0, 0]] 2
    [[[1, 0], [0, 2]]] [2] 0 (by decide) (by decide) (by decide)
  exact ⟨h.1, h.2.2.2 [0, 0] (by decide) (by decide)⟩

/-- Claim C7: the chain-structured `compute_probabilities` is a no-op for
every input and never returns a per-class distribution. -/
theorem claim_C7_crf_probabilities_noop :
    ∀ logits : List (List (List ℝ)),
      CRF.compute_probabilities logits = ProbOutput.noOp
      ∧ ∀ p, CRF.compute_probabilities logits ≠ ProbOutput.dist p := by
  intro lg
  exact ⟨rfl, fun p h => ProbOutput.noConfusion h⟩

end

end HierarchicalRNN
